import Mathlib

set_option maxHeartbeats 1000000
set_option maxRecDepth 4000

namespace SubtitlePipeline

/-- The single-quote character (code 39), built by code point to keep string
literals free of quote characters. -/
def squote : Char := Char.ofNat 39

/-- The backslash character (code 92). -/
def bslash : Char := Char.ofNat 92

/-- One transcribed word, as extracted in `transcribeVideo`
(src/backend/src/transcription.ts, interface WordInfo): lower-cased token,
start and end offsets in seconds, and a confidence.  Seconds and confidence
are modelled as exact rationals. -/
structure WordInfo where
  word : String
  startTime : ℚ
  endTime : ℚ
  confidence : ℚ
deriving DecidableEq, Repr

/-- One caption segment as assembled by the segment-building loop of
`transcribeVideo` before it is saved. -/
structure Segment where
  text : String
  startTime : ℚ
  endTime : ℚ
  confidence : ℚ
deriving DecidableEq, Repr

/-- Fuel-driven worker for `chunksOf`; the fuel bounds the number of chunks
and is always instantiated with the list length, which suffices for a chunk
size of at least 1. -/
def chunksOfFuel (n : ℕ) : ℕ → List α → List (List α)
  | _, [] => []
  | 0, _ :: _ => []
  | fuel + 1, x :: xs => (x :: xs).take n :: chunksOfFuel n fuel ((x :: xs).drop n)

/-- Consecutive chunks of `n` elements, final chunk possibly shorter: the
decomposition performed by the loop
`for (let i = 0; i < words.length; i += wordsPerSegment)` with
`words.slice(i, i + wordsPerSegment)` in transcription.ts.  The source loop
does not terminate when `wordsPerSegment = 0`; every claim assumes a chunk
size of at least 1, and all lemmas below are stated for size `n + 1`. -/
def chunksOf (n : ℕ) (l : List α) : List (List α) :=
  chunksOfFuel n l.length l

/-- Space-joined list of strings, modelling JavaScript `array.join(' ')`:
empty list gives the empty string, otherwise the entries separated by single
spaces. -/
def joinSpace : List String → String
  | [] => ""
  | [x] => x
  | x :: y :: t => x ++ " " ++ joinSpace (y :: t)

/-- Segment assembled from one chunk of words, per transcription.ts lines
102-115: text is the space-joined words, start is the first word's start,
end is the last word's end, confidence is the sum of confidences divided by
the word count.  The source only builds a segment from a non-empty chunk;
the defaults for the empty chunk are never reached. -/
def mkSegment (c : List WordInfo) : Segment :=
  { text := joinSpace (c.map WordInfo.word)
    startTime := ((c.head?).map WordInfo.startTime).getD 0
    endTime := ((c.getLast?).map WordInfo.endTime).getD 0
    confidence := (c.map WordInfo.confidence).sum / (c.length : ℚ) }

/-- The segment-building pass of `transcribeVideo`: one segment per chunk of
`n` consecutive words. -/
def buildSegments (ws : List WordInfo) (n : ℕ) : List Segment :=
  (chunksOf n ws).map mkSegment

/-- The chunk of words a given segment index is built from: the source loop
at iteration `i` takes `words.slice(n*i, n*i + n)`. -/
def chunkAt (ws : List WordInfo) (n i : ℕ) : List WordInfo :=
  (ws.drop (n * i)).take n

theorem chunksOfFuel_congr (n : ℕ) :
    ∀ (f g : ℕ) (l : List α), l.length ≤ f → l.length ≤ g →
      chunksOfFuel (n + 1) f l = chunksOfFuel (n + 1) g l
  | f, g, [], _, _ => by cases f <;> cases g <;> rfl
  | 0, _, _ :: _, hf, _ => absurd hf (by simp)
  | _ + 1, 0, _ :: _, _, hg => absurd hg (by simp)
  | f + 1, g + 1, x :: xs, hf, hg => by
    simp only [chunksOfFuel]
    refine congrArg _ ?_
    apply chunksOfFuel_congr n f g
    · simp only [List.length_drop, List.length_cons] at *
      omega
    · simp only [List.length_drop, List.length_cons] at *
      omega

theorem chunksOf_nil (n : ℕ) : chunksOf (n + 1) ([] : List α) = [] := rfl

theorem chunksOf_cons (n : ℕ) (x : α) (xs : List α) :
    chunksOf (n + 1) (x :: xs) =
      (x :: xs).take (n + 1) :: chunksOf (n + 1) ((x :: xs).drop (n + 1)) := by
  show chunksOfFuel (n + 1) (xs.length + 1) (x :: xs) = _
  simp only [chunksOfFuel]
  refine congrArg _ ?_
  apply chunksOfFuel_congr
  · simp only [List.length_drop, List.length_cons]; omega
  · exact le_refl _

theorem chunksOf_join (n : ℕ) : (l : List α) → (chunksOf (n + 1) l).flatten = l
  | [] => rfl
  | x :: xs => by
    rw [chunksOf_cons]
    have ih := chunksOf_join n ((x :: xs).drop (n + 1))
    simp only [List.flatten_cons, ih]
    exact List.take_append_drop _ _
termination_by l => l.length
decreasing_by simp [List.length_drop]; omega

theorem chunksOf_length (n : ℕ) : (l : List α) →
    (chunksOf (n + 1) l).length = (l.length + n) / (n + 1)
  | [] => by
    rw [chunksOf_nil]
    simp only [List.length_nil, List.length, Nat.zero_add]
    exact (Nat.div_eq_of_lt (by omega)).symm
  | x :: xs => by
    rw [chunksOf_cons]
    have ih := chunksOf_length n ((x :: xs).drop (n + 1))
    simp only [List.length_cons, ih, List.length_drop]
    rcases Nat.lt_or_ge xs.length (n + 1) with h | h
    · have h1 : xs.length + 1 - (n + 1) + n = n := by omega
      have h2 : xs.length + 1 + n = xs.length + (n + 1) := by omega
      rw [h1, h2, Nat.add_div_right _ (by omega), Nat.div_eq_of_lt (by omega),
        Nat.div_eq_of_lt (by omega)]
    · have h1 : xs.length + 1 - (n + 1) + n = xs.length := by omega
      have h2 : xs.length + 1 + n = xs.length + (n + 1) := by omega
      rw [h1, h2, Nat.add_div_right _ (by omega)]
termination_by l => l.length
decreasing_by simp [List.length_drop]; omega

theorem chunksOf_getElem (n : ℕ) : (l : List α) → (i : ℕ) →
    i < (chunksOf (n + 1) l).length →
    (chunksOf (n + 1) l)[i]? = some ((l.drop ((n + 1) * i)).take (n + 1))
  | [], i, h => by rw [chunksOf_nil] at h; simp at h
  | x :: xs, 0, _ => by
    rw [chunksOf_cons]
    simp
  | x :: xs, i + 1, h => by
    rw [chunksOf_cons] at h ⊢
    simp only [List.getElem?_cons_succ]
    have hlen : i < (chunksOf (n + 1) ((x :: xs).drop (n + 1))).length := by
      simpa using h
    rw [chunksOf_getElem n ((x :: xs).drop (n + 1)) i hlen]
    rw [List.drop_drop]
    congr 2
    ring_nf
termination_by l => l.length
decreasing_by simp [List.length_drop]; omega

theorem chunksOf_ne_nil (n : ℕ) : (l : List α) → ∀ c ∈ chunksOf (n + 1) l, c ≠ []
  | [], c, hc => by rw [chunksOf_nil] at hc; simp at hc
  | x :: xs, c, hc => by
    rw [chunksOf_cons] at hc
    rcases List.mem_cons.mp hc with hc | hc
    · subst hc; simp
    · exact chunksOf_ne_nil n ((x :: xs).drop (n + 1)) c hc
termination_by l => l.length
decreasing_by simp [List.length_drop]; omega

/-- Floor of a rational, as computed by JavaScript `Math.floor` on the exact
value. -/
def jsFloor (q : ℚ) : ℤ := ⌊q⌋

/-- JavaScript remainder `a % b`, for the non-negative operands used by the
time formatters (where it agrees with `a - b * Math.floor(a / b)`). -/
def jsMod (a b : ℚ) : ℚ := a - b * (jsFloor (a / b) : ℚ)

/-- JavaScript `String.prototype.padStart(w, '0')`: left-pad with zeros up to
width `w`; a string already at least `w` long is returned unchanged. -/
def padStart (s : String) (w : ℕ) : String :=
  String.mk (List.replicate (w - s.length) (Char.ofNat 48)) ++ s

/-- Hours field of the SRT/VTT formatters: `Math.floor(seconds / 3600)`. -/
def srtHours (q : ℚ) : ℤ := jsFloor (q / 3600)

/-- Minutes field: `Math.floor((seconds % 3600) / 60)`. -/
def srtMinutes (q : ℚ) : ℤ := jsFloor (jsMod q 3600 / 60)

/-- Seconds field: `Math.floor(seconds % 60)`. -/
def srtSecs (q : ℚ) : ℤ := jsFloor (jsMod q 60)

/-- Milliseconds field: `Math.floor((seconds % 1) * 1000)`. -/
def srtMillis (q : ℚ) : ℤ := jsFloor (jsMod q 1 * 1000)

/-- The `formatSrtTime` helper of exportSubtitles.ts / videoProcessor.ts / App.tsx:
`HH:MM:SS,mmm` with comma millisecond separator, fields zero-padded to
widths 2, 2, 2, 3. -/
def formatSrtTime (seconds : ℚ) : String :=
  padStart (Int.repr (srtHours seconds)) 2 ++ ":" ++
    padStart (Int.repr (srtMinutes seconds)) 2 ++ ":" ++
    padStart (Int.repr (srtSecs seconds)) 2 ++ "," ++
    padStart (Int.repr (srtMillis seconds)) 3

/-- The `formatVttTime` helper of App.tsx lines 707-718: identical fields to
`formatSrtTime` but with a dot millisecond separator. -/
def formatVttTime (seconds : ℚ) : String :=
  padStart (Int.repr (srtHours seconds)) 2 ++ ":" ++
    padStart (Int.repr (srtMinutes seconds)) 2 ++ ":" ++
    padStart (Int.repr (srtSecs seconds)) 2 ++ "." ++
    padStart (Int.repr (srtMillis seconds)) 3

/-- The `textTransform` option: `'none' | 'uppercase' | 'lowercase'`. -/
inductive TextTransform
  | noTransform
  | uppercase
  | lowercase
deriving DecidableEq, Repr

/-- JavaScript `toUpperCase` over the ASCII range: upper-case each
character. -/
def jsToUpper (s : String) : String := String.mk (s.data.map Char.toUpper)

/-- JavaScript `toLowerCase` over the ASCII range: lower-case each
character. -/
def jsToLower (s : String) : String := String.mk (s.data.map Char.toLower)

/-- The case transform applied to caption text before serialization. -/
def applyTransform : TextTransform → String → String
  | .noTransform, s => s
  | .uppercase, s => jsToUpper s
  | .lowercase, s => jsToLower s

/-- A persisted caption row (database.ts, interface Caption; the
`created_at` column is set by the database and irrelevant to the claims). -/
structure Caption where
  id : String
  video_id : String
  segment_index : ℕ
  start_time : ℚ
  end_time : ℚ
  text : String
  confidence : ℚ
deriving DecidableEq, Repr

/-- One SRT cue as produced by `generateSrtFile`/`burnCaptionsToVideo`:
`${index + 1}\n${start} --> ${end}\n${text}\n` where `index` is 0-based. -/
def srtCue (index : ℕ) (c : Caption) (t : TextTransform) : String :=
  Nat.repr (index + 1) ++ "\n" ++ formatSrtTime c.start_time ++ " --> " ++
    formatSrtTime c.end_time ++ "\n" ++ applyTransform t c.text ++ "\n"

/-- The list of cue strings, carrying the running 0-based index of the
`captions.map((caption, index) => ...)` call. -/
def srtCueList (t : TextTransform) : ℕ → List Caption → List String
  | _, [] => []
  | i, c :: cs => srtCue i c t :: srtCueList t (i + 1) cs

/-- The SRT text produced from a caption list: cues joined by `'\n'`
(JavaScript `.join('\n')`). -/
def srtContent (caps : List Caption) (t : TextTransform) : String :=
  String.intercalate "\n" (srtCueList t 0 caps)

/-- The error message thrown by both `generateSrtFile` and
`burnCaptionsToVideo` when the caption list is empty. -/
def noCaptionsMsg : String := "No captions found for this video"

/-- Result of `generateSrtFile` (exportSubtitles.ts lines 19-42): throws the
no-captions error before writing anything, otherwise returns the SRT text
that is written to disk.  The Boolean component records whether the file
write happened. -/
def generateSrtFileRun (caps : List Caption) (t : TextTransform) :
    Bool × Except String String :=
  if caps.length = 0 then (false, .error noCaptionsMsg)
  else (true, .ok (srtContent caps t))

/-- Observable steps of a burn-in export run, in order of occurrence. -/
inductive RenderEvent
  | writeSrtFile
  | spawnRender
  | deleteSrtFile
deriving DecidableEq, Repr

/-- Terminal result of a burn-in export run.  `cleanupError` models an
exception from `fs.unlinkSync` escaping the event callback uncaught (neither
`resolve` nor `reject` on the original outcome is reached). -/
inductive BurnOutcome
  | ok (outputPath : String)
  | noCaptionsError
  | renderError
  | cleanupError
deriving DecidableEq, Repr

/-- The `burnCaptionsToVideo` of videoProcessor.ts: no-captions check, SRT
write, render; on success the SRT file is deliberately kept (`// Keep SRT
file for debugging - DON'T delete it yet`); on render error the SRT file is
unlinked before rejecting.  `renderOk` is the render collaborator's terminal
signal and `unlinkOk` whether `fs.unlinkSync` would succeed. -/
def burnVP (caps : List Caption) (dir videoId : String) (renderOk unlinkOk : Bool) :
    List RenderEvent × BurnOutcome :=
  if caps.length = 0 then ([], .noCaptionsError)
  else if renderOk then
    ([.writeSrtFile, .spawnRender], .ok (dir ++ "/" ++ videoId ++ "_with_captions.mp4"))
  else if unlinkOk then
    ([.writeSrtFile, .spawnRender, .deleteSrtFile], .renderError)
  else ([.writeSrtFile, .spawnRender], .cleanupError)

/-- The `burnCaptionsToVideo` of exportSubtitles.ts (second half of the
file): same structure, but the SRT file is unlinked on the success path as
well, with the unlink not wrapped in any error handling. -/
def burnES (caps : List Caption) (dir videoId : String) (renderOk unlinkOk : Bool) :
    List RenderEvent × BurnOutcome :=
  if caps.length = 0 then ([], .noCaptionsError)
  else if renderOk then
    if unlinkOk then
      ([.writeSrtFile, .spawnRender, .deleteSrtFile],
        .ok (dir ++ "/" ++ videoId ++ "_with_captions.mp4"))
    else ([.writeSrtFile, .spawnRender], .cleanupError)
  else if unlinkOk then
    ([.writeSrtFile, .spawnRender, .deleteSrtFile], .renderError)
  else ([.writeSrtFile, .spawnRender], .cleanupError)

/-- Stable insertion into a list sorted by `segment_index`. -/
def insertByIndex (c : Caption) : List Caption → List Caption
  | [] => [c]
  | d :: ds => if c.segment_index ≤ d.segment_index then c :: d :: ds
    else d :: insertByIndex c ds

/-- Sort by `segment_index` ascending: the `ORDER BY segment_index ASC` of
`getCaptionsByVideoId` in database.ts. -/
def sortByIndex : List Caption → List Caption
  | [] => []
  | c :: cs => insertByIndex c (sortByIndex cs)

/-- The `getCaptionsByVideoId` query: all caption rows of one video, ordered by
segment index.  A `videoId` matching no rows yields `[]`; the videos table
is never consulted. -/
def getCaptionsByVideoId (table : List Caption) (vid : String) : List Caption :=
  sortByIndex (table.filter (fun c => c.video_id == vid))

/-- The caption row created for the segment at loop index `i`; `mkId`
stands for the external `uuidv4()` generator. -/
def mkRow (mkId : ℕ → String) (vid : String) (i : ℕ) (s : Segment) : Caption :=
  ⟨mkId i, vid, i, s.startTime, s.endTime, s.text, s.confidence⟩

/-- The caption rows bulk-created at the end of `transcribeVideo`: one row
per segment, `segment_index` equal to the running loop index. -/
def captionRows (mkId : ℕ → String) (vid : String) : ℕ → List Segment → List Caption
  | _, [] => []
  | i, s :: rest => mkRow mkId vid i s :: captionRows mkId vid (i + 1) rest

/-- All caption rows created for one transcription run. -/
def savedCaptions (mkId : ℕ → String) (vid : String) (ws : List WordInfo) (n : ℕ) :
    List Caption :=
  captionRows mkId vid 0 (buildSegments ws n)

/-- The fixed filler-word exclusion set of transcription.ts lines 9-11. -/
def fillerWords : List String :=
  ["um", "uh", "hmm", "ah", "like", "you know", "so", "basically", "actually"]

/-- The test `FILLER_WORDS.has(word)`, applied to the already lower-cased token. -/
def isFillerWord (w : String) : Bool := fillerWords.contains w

/-- The filler filtering pass: words whose lower-cased token is in the
exclusion set are skipped; all others are kept unchanged. -/
def filterFillers (ws : List WordInfo) : List WordInfo :=
  ws.filter (fun w => !isFillerWord w.word)

/-- Words are chronologically ordered: each word ends no later than the next
starts. -/
def timeOrdered (ws : List WordInfo) : Prop :=
  List.Chain' (fun a b => a.endTime ≤ b.startTime) ws

/-- Every word has a well-formed time interval (data-model invariant
`end time ≥ start`). -/
def wellFormedWords (ws : List WordInfo) : Prop :=
  ∀ w ∈ ws, w.startTime ≤ w.endTime

/-- Font weight option: normal or bold. -/
inductive FontWeight
  | normal
  | bold
deriving DecidableEq, Repr

/-- Vertical position option: top, center or bottom. -/
inductive VPosition
  | top
  | center
  | bottom
deriving DecidableEq, Repr

/-- The CaptionStyle interface shared by videoProcessor.ts,
exportSubtitles.ts and the drawtext variant. -/
structure CaptionStyle where
  fontFamily : String
  fontSize : ℚ
  fontColor : String
  backgroundColor : String
  showBackground : Bool
  fontWeight : FontWeight
  position : VPosition
  textTransform : TextTransform
  outlineWidth : ℚ
  outlineColor : String
  lineSpacing : ℚ
deriving DecidableEq, Repr

/-- A one-character string holding the single-quote character. -/
def qStr : String := String.mk [squote]

/-- The replacement emitted for each single quote by
`caption.text.replace(/'/g, "'\\\\\\''")` in the drawtext variant: quote,
three backslashes, quote, quote. -/
def escSeq : List Char := [squote, bslash, bslash, bslash, squote, squote]

/-- Character-level worker for the drawtext quote escaping. -/
def escapeQuoteChars : List Char → List Char
  | [] => []
  | c :: cs => if c = squote then escSeq ++ escapeQuoteChars cs
    else c :: escapeQuoteChars cs

/-- The drawtext variant's text escaping: every single quote is replaced by
`escSeq`; no other character is touched. -/
def escapeDrawtextText (s : String) : String := String.mk (escapeQuoteChars s.data)

/-- The normalization `srtPath.replace` of backslashes into forward slashes;
nothing else changes and nothing is escaped. -/
def normalizeSlashes (s : String) : String :=
  String.mk (s.data.map (fun c => if c = bslash then '/' else c))

/-- The hardcoded force_style of videoProcessor.ts line 110 (no BackColour
entry at all). -/
def vpForceStyle : String :=
  "FontSize=48,PrimaryColour=&H00FFFFFF,OutlineColour=&H00000000,Bold=-1,Outline=3"

/-- The hardcoded force_style of the exportSubtitles.ts burn variant (line
158): fixed semi-transparent black `BackColour=&H80000000`. -/
def esForceStyle : String :=
  "FontName=Arial,FontSize=48,PrimaryColour=&H00FFFFFF,OutlineColour=&H00000000,BackColour=&H80000000,Bold=-1,Outline=3,Shadow=1,Alignment=2,MarginV=50"

/-- The subtitles filter expression built by videoProcessor.ts: the
normalized path and the hardcoded style.  The caption style in scope is not
consulted. -/
def vpSubtitleFilter (_style : CaptionStyle) (srtPath : String) : String :=
  "subtitles=" ++ normalizeSlashes srtPath ++ ":force_style=" ++ qStr ++ vpForceStyle ++ qStr

/-- The subtitles filter expression built by the exportSubtitles.ts burn
variant; likewise independent of the caption style. -/
def esSubtitleFilter (_style : CaptionStyle) (srtPath : String) : String :=
  "subtitles=" ++ normalizeSlashes srtPath ++ ":force_style=" ++ qStr ++ esForceStyle ++ qStr

/-- Vertical position expression of the drawtext variant: bottom is the
default, top and center override it. -/
def drawtextY : VPosition → String
  | .top => "50"
  | .center => "(h-th)/2"
  | .bottom => "h-th-50"

/-- One drawtext instruction of the inline variant (src/unnamed/part_001
lines 100-120): quote-escaped, case-transformed caption text, hardcoded font
settings, and a time-window enable clause.  `showNum` stands for JavaScript
number-to-string conversion of the interpolated timestamps. -/
def drawtextFilterFor (showNum : ℚ → String) (style : CaptionStyle) (c : Caption) : String :=
  "drawtext=text=" ++ qStr ++
    applyTransform style.textTransform (escapeDrawtextText c.text) ++ qStr ++
    ":fontfile=/usr/share/fonts/truetype/dejavu/DejaVuSans-Bold.ttf:fontsize=48:fontcolor=white:borderw=3:bordercolor=black:x=(w-text_w)/2:y=" ++
    drawtextY style.position ++ ":enable=" ++ qStr ++ "between(t," ++
    showNum c.start_time ++ "," ++ showNum c.end_time ++ ")" ++ qStr

/-- The full drawtext filter chain: one instruction per caption, joined by
commas. -/
def drawtextFilters (showNum : ℚ → String) (style : CaptionStyle)
    (caps : List Caption) : String :=
  String.intercalate "," (caps.map (drawtextFilterFor showNum style))

/-- The segment-builder contract of the claim: segment count is
`ceil(len/N)`; space-joining the segment texts reproduces the space-joined
words; and every produced segment carries its chunk's first start, last end,
space-joined text, and mean confidence. -/
def segmentsSpec (ws : List WordInfo) (n : ℕ) : Prop :=
  (buildSegments ws n).length = (ws.length + n - 1) / n ∧
  joinSpace ((buildSegments ws n).map Segment.text) = joinSpace (ws.map WordInfo.word) ∧
  ∀ i s, (buildSegments ws n)[i]? = some s →
    ∃ w0 wL,
      (chunkAt ws n i).head? = some w0 ∧
      (chunkAt ws n i).getLast? = some wL ∧
      s.text = joinSpace ((chunkAt ws n i).map WordInfo.word) ∧
      s.startTime = w0.startTime ∧
      s.endTime = wL.endTime ∧
      s.confidence = ((chunkAt ws n i).map WordInfo.confidence).sum /
        ((chunkAt ws n i).length : ℚ)

/-- A small concrete word list used to instantiate hypothesis-bearing
theorems. -/
def demoWords : List WordInfo :=
  [⟨"hello", 0, 1, 9/10⟩, ⟨"world", 3/2, 2, 1/2⟩, ⟨"again", 3, 4, 1⟩]

/-- A concrete single caption with text "hello world" spanning 0.0-1.0
seconds. -/
def demoCaption : Caption := ⟨"c1", "v1", 0, 0, 1, "hello world", 1⟩

/-- The stored-segment invariant of the claim, for the rows created by one
transcription run: reading them back through `getCaptionsByVideoId` returns
them unchanged; their indices are dense `0..k-1`; adjacent rows do not
overlap; and start times never decrease. -/
def segmentsInvariantSpec (mkId : ℕ → String) (vid : String) (ws : List WordInfo)
    (n : ℕ) : Prop :=
  getCaptionsByVideoId (savedCaptions mkId vid ws n) vid = savedCaptions mkId vid ws n ∧
  (savedCaptions mkId vid ws n).map Caption.segment_index =
    List.range (savedCaptions mkId vid ws n).length ∧
  List.Chain' (fun a b => a.end_time ≤ b.start_time) (savedCaptions mkId vid ws n) ∧
  List.Chain' (fun a b => a.start_time ≤ b.start_time) (savedCaptions mkId vid ws n)

/-- A word list satisfying the claim's stated ordering hypothesis (each end
time at most the next start time) whose first word has a start time after
its end time. -/
def badWords : List WordInfo := [⟨"a", 5, 1, 1⟩, ⟨"b", 2, 3, 1⟩]

/-- A concrete caption style with background disabled and background color
red. -/
def demoStyle : CaptionStyle :=
  { fontFamily := "Arial", fontSize := 24, fontColor := "#FFFFFF",
    backgroundColor := "#FF0000", showBackground := false,
    fontWeight := FontWeight.normal, position := VPosition.bottom,
    textTransform := TextTransform.noTransform, outlineWidth := 2,
    outlineColor := "#000000", lineSpacing := 4 }

/-- Cleanup behaviour of the two burn variants on a non-empty caption list:
the exportSubtitles variant deletes the intermediate SRT file after success
and after a render error; the videoProcessor variant deletes it only after a
render error and keeps it on success; in both variants a failing unlink
surfaces as an escaping exception rather than a logged-and-swallowed
error. -/
def burnCleanupSpec (caps : List Caption) (dir vid : String) : Prop :=
  (∀ renderOk : Bool, RenderEvent.deleteSrtFile ∈ (burnES caps dir vid renderOk true).1) ∧
  (∀ renderOk : Bool, (burnES caps dir vid renderOk false).2 = BurnOutcome.cleanupError) ∧
  RenderEvent.deleteSrtFile ∉ (burnVP caps dir vid true true).1 ∧
  (burnVP caps dir vid true true).2 =
    BurnOutcome.ok (dir ++ "/" ++ vid ++ "_with_captions.mp4") ∧
  RenderEvent.deleteSrtFile ∈ (burnVP caps dir vid false true).1 ∧
  (burnVP caps dir vid false false).2 = BurnOutcome.cleanupError

/-- Shape contract of the time formatters for one seconds value: every field
is the floor/modulo value, minutes and seconds lie below 60, milliseconds
below 1000, and the padded fields have exact widths 2, 2, 3. -/
def srtTimeShapeSpec (q : ℚ) : Prop :=
  0 ≤ srtHours q ∧
  0 ≤ srtMinutes q ∧ srtMinutes q < 60 ∧
  0 ≤ srtSecs q ∧ srtSecs q < 60 ∧
  0 ≤ srtMillis q ∧ srtMillis q < 1000 ∧
  formatSrtTime q =
    padStart (Int.repr (srtHours q)) 2 ++ ":" ++
      padStart (Int.repr (srtMinutes q)) 2 ++ ":" ++
      padStart (Int.repr (srtSecs q)) 2 ++ "," ++
      padStart (Int.repr (srtMillis q)) 3 ∧
  formatVttTime q =
    padStart (Int.repr (srtHours q)) 2 ++ ":" ++
      padStart (Int.repr (srtMinutes q)) 2 ++ ":" ++
      padStart (Int.repr (srtSecs q)) 2 ++ "." ++
      padStart (Int.repr (srtMillis q)) 3 ∧
  (padStart (Int.repr (srtMinutes q)) 2).length = 2 ∧
  (padStart (Int.repr (srtSecs q)) 2).length = 2 ∧
  (padStart (Int.repr (srtMillis q)) 3).length = 3

theorem joinSpace_cons_cons (x y : String) (t : List String) :
    joinSpace (x :: y :: t) = x ++ " " ++ joinSpace (y :: t) := rfl

theorem joinSpace_append (a b : List String) (ha : a ≠ []) (hb : b ≠ []) :
    joinSpace (a ++ b) = joinSpace a ++ " " ++ joinSpace b := by
  induction a with
  | nil => exact absurd rfl ha
  | cons x xs ih =>
    cases xs with
    | nil =>
      cases b with
      | nil => exact absurd rfl hb
      | cons y t => rfl
    | cons x2 t2 =>
      have ihh := ih (List.cons_ne_nil _ _)
      calc joinSpace ((x :: x2 :: t2) ++ b)
          = x ++ " " ++ joinSpace ((x2 :: t2) ++ b) := rfl
        _ = x ++ " " ++ (joinSpace (x2 :: t2) ++ " " ++ joinSpace b) := by rw [ihh]
        _ = (x ++ " " ++ joinSpace (x2 :: t2)) ++ " " ++ joinSpace b := by
              simp [String.append_assoc]
        _ = joinSpace (x :: x2 :: t2) ++ " " ++ joinSpace b := rfl

theorem joinSpace_flatten (f : α → String) :
    ∀ ll : List (List α), (∀ c ∈ ll, c ≠ []) →
      joinSpace (ll.map (fun c => joinSpace (c.map f))) = joinSpace (ll.flatten.map f) := by
  intro ll
  induction ll with
  | nil => intro _; rfl
  | cons c rest ih =>
    intro hne
    have hc : c ≠ [] := hne c (by simp)
    cases rest with
    | nil =>
      simp only [List.map_cons, List.map_nil, List.flatten_cons, List.flatten_nil,
        List.append_nil]
      rfl
    | cons d rest2 =>
      have hrest : ∀ x ∈ d :: rest2, x ≠ [] := fun x hx => hne x (by simp [hx])
      have hd : d ≠ [] := hrest d (by simp)
      have hflat : (d :: rest2).flatten ≠ [] := by
        cases d with
        | nil => exact absurd rfl hd
        | cons e es => simp
      calc joinSpace ((c :: d :: rest2).map (fun c => joinSpace (c.map f)))
          = joinSpace (c.map f) ++ " " ++
              joinSpace ((d :: rest2).map (fun c => joinSpace (c.map f))) := rfl
        _ = joinSpace (c.map f) ++ " " ++ joinSpace ((d :: rest2).flatten.map f) := by
              rw [ih hrest]
        _ = joinSpace (c.map f ++ (d :: rest2).flatten.map f) := by
              rw [joinSpace_append (c.map f) ((d :: rest2).flatten.map f)
                (by simpa using hc) (by simpa using hflat)]
        _ = joinSpace ((c :: d :: rest2).flatten.map f) := by
              simp [List.flatten_cons, List.map_append]

theorem buildSegments_getElem (n : ℕ) (ws : List WordInfo) (i : ℕ) (s : Segment)
    (h : (buildSegments ws (n + 1))[i]? = some s) :
    s = mkSegment (chunkAt ws (n + 1) i) ∧ chunkAt ws (n + 1) i ≠ [] := by
  unfold buildSegments at h
  rw [List.getElem?_map] at h
  cases hc : (chunksOf (n + 1) ws)[i]? with
  | none => rw [hc] at h; exact Option.noConfusion h
  | some c =>
    rw [hc] at h
    have hi : i < (chunksOf (n + 1) ws).length := by
      by_contra hcon
      rw [List.getElem?_eq_none (by omega)] at hc
      exact Option.noConfusion hc
    have hchar := chunksOf_getElem n ws i hi
    rw [hc] at hchar
    have hceq : c = chunkAt ws (n + 1) i := Option.some.inj hchar
    have h' : some (mkSegment c) = some s := h
    have h3 : mkSegment c = s := Option.some.inj h'
    have hmem : c ∈ chunksOf (n + 1) ws := by
      have := List.getElem?_eq_some.mp hc
      obtain ⟨hlt, hget⟩ := this
      exact hget ▸ List.getElem_mem hlt
    have hne := chunksOf_ne_nil n ws c hmem
    exact ⟨by rw [← h3, hceq], hceq ▸ hne⟩

/-- C1: for every word list and every words-per-segment N ≥ 1, the segment
builder emits exactly ceil(len/N) segments, space-joining the segment texts
reproduces the space-joined word sequence, and every segment carries its
chunk's first start time, last end time, and mean confidence. -/
theorem claim1_segment_builder (ws : List WordInfo) (n : ℕ) (hn : 1 ≤ n) :
    segmentsSpec ws n := by
  obtain ⟨m, rfl⟩ : ∃ m, n = m + 1 := ⟨n - 1, by omega⟩
  refine ⟨?_, ?_, ?_⟩
  · unfold buildSegments
    rw [List.length_map, chunksOf_length]
    congr 1
  · unfold buildSegments
    rw [List.map_map]
    have h1 : (Segment.text ∘ mkSegment) = fun c => joinSpace (c.map WordInfo.word) := by
      funext c
      rfl
    rw [h1, joinSpace_flatten WordInfo.word (chunksOf (m + 1) ws) (chunksOf_ne_nil m ws),
      chunksOf_join]
  · intro i s h
    obtain ⟨hs, hne⟩ := buildSegments_getElem m ws i s h
    cases hck : chunkAt ws (m + 1) i with
    | nil => exact absurd hck hne
    | cons w rest =>
      rw [hck] at hs
      refine ⟨w, (w :: rest).getLast (by simp), rfl, ?_, ?_, ?_, ?_, ?_⟩
      · exact List.getLast?_eq_getLast _ _
      · rw [hs]; rfl
      · rw [hs]; rfl
      · rw [hs]
        simp [mkSegment, List.getLast?_eq_getLast]
      · rw [hs]; rfl

/-- C1 witness: the spec instantiated at a concrete three-word list with
N = 2. -/
theorem claim1_segment_builder_witness : 1 ≤ 2 ∧ segmentsSpec demoWords 2 :=
  ⟨by norm_num, claim1_segment_builder demoWords 2 (by norm_num)⟩

/-- C6: filler filtering is a membership test against the fixed nine-entry
set; filtering twice equals filtering once; and the surviving words form a
sublist of the input, keeping their order, timestamps and confidences. -/
theorem claim6_filler_filter :
    (∀ w : String, isFillerWord w = true ↔ w ∈ fillerWords) ∧
    (∀ ws : List WordInfo, filterFillers (filterFillers ws) = filterFillers ws) ∧
    (∀ ws : List WordInfo, List.Sublist (filterFillers ws) ws) := by
  refine ⟨?_, ?_, ?_⟩
  · intro w
    simp [isFillerWord]
  · intro ws
    simp [filterFillers, List.filter_filter]
  · intro ws
    exact List.filter_sublist _

theorem padStart_length (s : String) (w : ℕ) (h : s.length ≤ w) :
    (padStart s w).length = w := by
  have hmk : (String.mk (List.replicate (w - s.length) (Char.ofNat 48))).length =
      w - s.length := by
    show (List.replicate (w - s.length) (Char.ofNat 48)).length = w - s.length
    simp
  simp only [padStart, String.length_append, hmk]
  omega

theorem int_repr_nonneg (i : ℤ) (h : 0 ≤ i) : Int.repr i = Nat.repr i.toNat := by
  obtain ⟨n, rfl⟩ := Int.eq_ofNat_of_zero_le h
  rfl

theorem natRepr_len_le_two : ∀ m < 100, (Nat.repr m).length ≤ 2 := by decide

theorem natRepr_len_le_three : ∀ m < 1000, (Nat.repr m).length ≤ 3 := by decide

theorem jsMod_nonneg (a b : ℚ) (hb : 0 < b) : 0 ≤ jsMod a b := by
  simp only [jsMod, jsFloor]
  have h1 : b * (⌊a / b⌋ : ℚ) ≤ b * (a / b) :=
    mul_le_mul_of_nonneg_left (Int.floor_le _) hb.le
  have h2 : b * (a / b) = a := by field_simp
  linarith

theorem jsMod_lt (a b : ℚ) (hb : 0 < b) : jsMod a b < b := by
  simp only [jsMod, jsFloor]
  have h1 : a / b < (⌊a / b⌋ : ℚ) + 1 := Int.lt_floor_add_one _
  have h2 : a < b * ((⌊a / b⌋ : ℚ) + 1) := by
    have := mul_lt_mul_of_pos_left h1 hb
    calc a = b * (a / b) := by field_simp
    _ < b * ((⌊a / b⌋ : ℚ) + 1) := this
  linarith [h2]

theorem floorQ_eq (x : ℚ) (n : ℤ) (h1 : (n : ℚ) ≤ x) (h2 : x < n + 1) : ⌊x⌋ = n :=
  Int.floor_eq_iff.mpr ⟨h1, h2⟩

theorem timeFields_concrete (q : ℚ) (H M S MS : ℕ)
    (hq : q = (H : ℚ) * 3600 + (M : ℚ) * 60 + (S : ℚ) + (MS : ℚ) / 1000)
    (hM : M < 60) (hS : S < 60) (hMS : MS < 1000) :
    srtHours q = (H : ℤ) ∧ srtMinutes q = (M : ℤ) ∧ srtSecs q = (S : ℤ) ∧
      srtMillis q = (MS : ℤ) := by
  have hMq : (M : ℚ) ≤ 59 := by exact_mod_cast (by omega : M ≤ 59)
  have hSq : (S : ℚ) ≤ 59 := by exact_mod_cast (by omega : S ≤ 59)
  have hMSq : (MS : ℚ) ≤ 999 := by exact_mod_cast (by omega : MS ≤ 999)
  have hM0 : (0 : ℚ) ≤ (M : ℚ) := Nat.cast_nonneg M
  have hS0 : (0 : ℚ) ≤ (S : ℚ) := Nat.cast_nonneg S
  have hMS0 : (0 : ℚ) ≤ (MS : ℚ) := Nat.cast_nonneg MS
  have hfr0 : (0 : ℚ) ≤ (MS : ℚ) / 1000 := by positivity
  have hfr1 : (MS : ℚ) / 1000 < 1 := by
    rw [div_lt_one (by norm_num : (0:ℚ) < 1000)]
    linarith
  have hH : ⌊q / 3600⌋ = (H : ℤ) := by
    apply floorQ_eq
    · rw [le_div_iff (by norm_num : (0:ℚ) < 3600)]
      push_cast
      linarith
    · rw [div_lt_iff (by norm_num : (0:ℚ) < 3600)]
      push_cast
      linarith
  have hmod3600 : jsMod q 3600 = (M : ℚ) * 60 + (S : ℚ) + (MS : ℚ) / 1000 := by
    simp only [jsMod, jsFloor, hH]
    push_cast
    linarith
  have hM' : ⌊jsMod q 3600 / 60⌋ = (M : ℤ) := by
    rw [hmod3600]
    apply floorQ_eq
    · rw [le_div_iff (by norm_num : (0:ℚ) < 60)]
      push_cast
      linarith
    · rw [div_lt_iff (by norm_num : (0:ℚ) < 60)]
      push_cast
      linarith
  have hH60 : ⌊q / 60⌋ = (H : ℤ) * 60 + (M : ℤ) := by
    apply floorQ_eq
    · rw [le_div_iff (by norm_num : (0:ℚ) < 60)]
      push_cast
      linarith
    · rw [div_lt_iff (by norm_num : (0:ℚ) < 60)]
      push_cast
      linarith
  have hmod60 : jsMod q 60 = (S : ℚ) + (MS : ℚ) / 1000 := by
    simp only [jsMod, jsFloor, hH60]
    push_cast
    linarith
  have hS' : ⌊jsMod q 60⌋ = (S : ℤ) := by
    rw [hmod60]
    apply floorQ_eq
    · push_cast
      linarith
    · push_cast
      linarith
  have hH1 : ⌊q / 1⌋ = (H : ℤ) * 3600 + (M : ℤ) * 60 + (S : ℤ) := by
    rw [div_one]
    apply floorQ_eq
    · push_cast
      linarith
    · push_cast
      linarith
  have hmod1 : jsMod q 1 = (MS : ℚ) / 1000 := by
    simp only [jsMod, jsFloor, hH1]
    push_cast
    linarith
  have hMS' : ⌊jsMod q 1 * 1000⌋ = (MS : ℤ) := by
    rw [hmod1, div_mul_cancel₀ _ (by norm_num : (1000:ℚ) ≠ 0)]
    exact Int.floor_natCast MS
  exact ⟨hH, hM', hS', hMS'⟩

theorem formatTimes_concrete (q : ℚ) (H M S MS : ℕ)
    (hq : q = (H : ℚ) * 3600 + (M : ℚ) * 60 + (S : ℚ) + (MS : ℚ) / 1000)
    (hM : M < 60) (hS : S < 60) (hMS : MS < 1000) :
    formatSrtTime q =
      padStart (Nat.repr H) 2 ++ ":" ++ padStart (Nat.repr M) 2 ++ ":" ++
        padStart (Nat.repr S) 2 ++ "," ++ padStart (Nat.repr MS) 3 ∧
    formatVttTime q =
      padStart (Nat.repr H) 2 ++ ":" ++ padStart (Nat.repr M) 2 ++ ":" ++
        padStart (Nat.repr S) 2 ++ "." ++ padStart (Nat.repr MS) 3 := by
  obtain ⟨hH, hM', hS', hMS'⟩ := timeFields_concrete q H M S MS hq hM hS hMS
  have e1 : Int.repr (srtHours q) = Nat.repr H := by
    rw [hH]; rfl
  have e2 : Int.repr (srtMinutes q) = Nat.repr M := by
    rw [hM']; rfl
  have e3 : Int.repr (srtSecs q) = Nat.repr S := by
    rw [hS']; rfl
  have e4 : Int.repr (srtMillis q) = Nat.repr MS := by
    rw [hMS']; rfl
  constructor
  · simp only [formatSrtTime, e1, e2, e3, e4]
  · simp only [formatVttTime, e1, e2, e3, e4]

/-- C3: serializing the single caption {text "hello world", start 0.0,
end 1.0} with the uppercase transform produces exactly the cue
`1\n00:00:00,000 --> 00:00:01,000\nHELLO WORLD\n`, and the file write
happens. -/
theorem claim3_srt_uppercase_exact :
    generateSrtFileRun [demoCaption] TextTransform.uppercase =
      (true, Except.ok "1\n00:00:00,000 --> 00:00:01,000\nHELLO WORLD\n") := by
  have h0 : formatSrtTime 0 = "00:00:00,000" := by
    rw [(formatTimes_concrete 0 0 0 0 0 (by norm_num) (by norm_num) (by norm_num)
      (by norm_num)).1]
    decide
  have h1 : formatSrtTime 1 = "00:00:01,000" := by
    rw [(formatTimes_concrete 1 0 0 1 0 (by norm_num) (by norm_num) (by norm_num)
      (by norm_num)).1]
    decide
  simp only [generateSrtFileRun, srtContent, srtCueList, srtCue, demoCaption,
    applyTransform, h0, h1, List.length_cons, List.length_nil]
  norm_num
  decide

/-- C5: for every non-negative seconds value both formatters emit
floor/modulo fields with minutes and seconds below 60 and milliseconds below
1000, zero-padded to widths 2, 2, 3; and 3725.125 seconds formats as
`01:02:05,125` (SRT) and `01:02:05.125` (VTT). -/
theorem claim5_time_formatter :
    (∀ q : ℚ, 0 ≤ q → srtTimeShapeSpec q) ∧
    formatSrtTime (29801 / 8) = "01:02:05,125" ∧
    formatVttTime (29801 / 8) = "01:02:05.125" := by
  refine ⟨?_, ?_, ?_⟩
  · intro q hq
    have hmod3600nn := jsMod_nonneg q 3600 (by norm_num)
    have hmod3600lt := jsMod_lt q 3600 (by norm_num)
    have hmod60nn := jsMod_nonneg q 60 (by norm_num)
    have hmod60lt := jsMod_lt q 60 (by norm_num)
    have hmod1nn := jsMod_nonneg q 1 (by norm_num)
    have hmod1lt := jsMod_lt q 1 (by norm_num)
    have hh0 : 0 ≤ srtHours q := by
      simp only [srtHours, jsFloor]
      exact Int.le_floor.mpr (by push_cast; exact div_nonneg hq (by norm_num))
    have hm0 : 0 ≤ srtMinutes q := by
      simp only [srtMinutes, jsFloor]
      exact Int.le_floor.mpr (by push_cast; exact div_nonneg hmod3600nn (by norm_num))
    have hmlt : srtMinutes q < 60 := by
      simp only [srtMinutes, jsFloor]
      apply Int.floor_lt.mpr
      push_cast
      rw [div_lt_iff₀ (by norm_num : (0:ℚ) < 60)]
      linarith
    have hs0 : 0 ≤ srtSecs q := by
      simp only [srtSecs, jsFloor]
      exact Int.le_floor.mpr (by push_cast; exact hmod60nn)
    have hslt : srtSecs q < 60 := by
      simp only [srtSecs, jsFloor]
      apply Int.floor_lt.mpr
      push_cast
      linarith
    have hms0 : 0 ≤ srtMillis q := by
      simp only [srtMillis, jsFloor]
      exact Int.le_floor.mpr (by push_cast; positivity)
    have hmslt : srtMillis q < 1000 := by
      simp only [srtMillis, jsFloor]
      apply Int.floor_lt.mpr
      push_cast
      linarith
    refine ⟨hh0, hm0, hmlt, hs0, hslt, hms0, hmslt, rfl, rfl, ?_, ?_, ?_⟩
    · apply padStart_length
      rw [int_repr_nonneg _ hm0]
      exact natRepr_len_le_two _ (by omega)
    · apply padStart_length
      rw [int_repr_nonneg _ hs0]
      exact natRepr_len_le_two _ (by omega)
    · apply padStart_length
      rw [int_repr_nonneg _ hms0]
      exact natRepr_len_le_three _ (by omega)
  · rw [(formatTimes_concrete (29801 / 8) 1 2 5 125 (by norm_num) (by norm_num)
      (by norm_num) (by norm_num)).1]
    decide
  · rw [(formatTimes_concrete (29801 / 8) 1 2 5 125 (by norm_num) (by norm_num)
      (by norm_num) (by norm_num)).2]
    decide

/-- C5 witness: the shape contract instantiated at 3725.125 seconds. -/
theorem claim5_time_formatter_witness :
    0 ≤ (29801 / 8 : ℚ) ∧ srtTimeShapeSpec (29801 / 8) :=
  ⟨by norm_num, claim5_time_formatter.1 (29801 / 8) (by norm_num)⟩

theorem buildSegments_nil (n : ℕ) : buildSegments [] (n + 1) = [] := rfl

theorem buildSegments_cons (n : ℕ) (x : WordInfo) (xs : List WordInfo) :
    buildSegments (x :: xs) (n + 1) =
      mkSegment ((x :: xs).take (n + 1)) ::
        buildSegments ((x :: xs).drop (n + 1)) (n + 1) := by
  unfold buildSegments
  rw [chunksOf_cons, List.map_cons]

theorem head_start_le_getLast_end : ∀ (w : WordInfo) (rest : List WordInfo),
    List.Chain' (fun a b => a.endTime ≤ b.startTime) (w :: rest) →
    (∀ x ∈ w :: rest, x.startTime ≤ x.endTime) →
    w.startTime ≤ ((w :: rest).getLast (List.cons_ne_nil w rest)).endTime := by
  intro w rest
  induction rest generalizing w with
  | nil =>
    intro _ hwf
    simpa using hwf w (by simp)
  | cons w2 t ih =>
    intro hchain hwf
    obtain ⟨hww2, hch2⟩ := List.chain'_cons.mp hchain
    have h2 := ih w2 hch2 (fun x hx => hwf x (List.mem_cons_of_mem w hx))
    have hw : w.startTime ≤ w.endTime := hwf w (by simp)
    rw [List.getLast_cons (List.cons_ne_nil w2 t)]
    linarith

theorem mkSegment_start_cons (x : WordInfo) (xs : List WordInfo) :
    (mkSegment (x :: xs)).startTime = x.startTime := rfl

theorem mkSegment_end_getLast (c : List WordInfo) (h : c ≠ []) :
    (mkSegment c).endTime = (c.getLast h).endTime := by
  simp [mkSegment, List.getLast?_eq_getLast c h]

theorem buildSegments_time_chain (n : ℕ) : ∀ ws : List WordInfo,
    timeOrdered ws → wellFormedWords ws →
    (∀ s ∈ buildSegments ws (n + 1), s.startTime ≤ s.endTime) ∧
    List.Chain' (fun a b => a.endTime ≤ b.startTime ∧ a.startTime ≤ b.startTime)
      (buildSegments ws (n + 1))
  | [] => fun _ _ => by
    rw [buildSegments_nil]
    exact ⟨fun s hs => absurd hs (List.not_mem_nil s), List.chain'_nil⟩
  | x :: xs => fun hord hwf => by
    rw [buildSegments_cons]
    have hsplit : (x :: xs).take (n + 1) ++ (x :: xs).drop (n + 1) = x :: xs :=
      List.take_append_drop _ _
    have hchain : List.Chain' (fun a b => a.endTime ≤ b.startTime)
        ((x :: xs).take (n + 1) ++ (x :: xs).drop (n + 1)) := by
      rw [hsplit]; exact hord
    rw [List.chain'_append] at hchain
    obtain ⟨hcC, hcR, hbd⟩ := hchain
    have hwfC : ∀ w ∈ (x :: xs).take (n + 1), w.startTime ≤ w.endTime := fun w hw =>
      hwf w (by rw [← hsplit]; exact List.mem_append_left _ hw)
    have hwfR : ∀ w ∈ (x :: xs).drop (n + 1), w.startTime ≤ w.endTime := fun w hw =>
      hwf w (by rw [← hsplit]; exact List.mem_append_right _ hw)
    have ih := buildSegments_time_chain n ((x :: xs).drop (n + 1)) hcR hwfR
    have htake : (x :: xs).take (n + 1) = x :: xs.take n := rfl
    have hcne : (x :: xs).take (n + 1) ≠ [] := by rw [htake]; simp
    have h1 : (mkSegment ((x :: xs).take (n + 1))).startTime ≤
        (mkSegment ((x :: xs).take (n + 1))).endTime := by
      rw [mkSegment_end_getLast _ hcne]
      exact head_start_le_getLast_end x (xs.take n) (htake ▸ hcC) (htake ▸ hwfC)
    refine ⟨?_, ?_⟩
    · intro s hs
      rcases List.mem_cons.mp hs with rfl | hs
      · exact h1
      · exact ih.1 s hs
    · rw [List.chain'_cons']
      refine ⟨?_, ih.2⟩
      intro b hb
      cases hrest : (x :: xs).drop (n + 1) with
      | nil =>
        rw [hrest, buildSegments_nil] at hb
        simp at hb
      | cons y t =>
        rw [hrest, buildSegments_cons] at hb
        simp only [List.head?_cons, Option.mem_def, Option.some.injEq] at hb
        subst hb
        have hylast : (mkSegment ((x :: xs).take (n + 1))).endTime ≤ y.startTime := by
          rw [mkSegment_end_getLast _ hcne]
          apply hbd
          · rw [List.getLast?_eq_getLast _ hcne]
            rfl
          · rw [hrest]
            rfl
        have hystart : (mkSegment ((y :: t).take (n + 1))).startTime = y.startTime := by
          rw [show ((y :: t).take (n + 1)) = y :: t.take n from rfl, mkSegment_start_cons]
        constructor
        · rw [hystart]; exact hylast
        · rw [hystart]; linarith
termination_by ws => ws.length
decreasing_by simp [List.length_drop]; omega

theorem captionRows_index (mkId : ℕ → String) (vid : String) :
    ∀ (i : ℕ) (segs : List Segment),
      (captionRows mkId vid i segs).map Caption.segment_index = List.range' i segs.length
  | _, [] => rfl
  | i, s :: rest => by
    simp only [captionRows, List.map_cons, captionRows_index mkId vid (i + 1) rest,
      List.length_cons]
    rfl

theorem captionRows_vid (mkId : ℕ → String) (vid : String) :
    ∀ (i : ℕ) (segs : List Segment), ∀ cap ∈ captionRows mkId vid i segs,
      cap.video_id = vid
  | _, [], cap, h => absurd h (List.not_mem_nil cap)
  | i, s :: rest, cap, h => by
    rcases List.mem_cons.mp h with rfl | h2
    · rfl
    · exact captionRows_vid mkId vid (i + 1) rest cap h2

theorem captionRows_chain (mkId : ℕ → String) (vid : String)
    (P : Caption → Caption → Prop) (Q : Segment → Segment → Prop)
    (h : ∀ i j s t, Q s t → P (mkRow mkId vid i s) (mkRow mkId vid j t)) :
    ∀ (segs : List Segment) (i : ℕ), List.Chain' Q segs →
      List.Chain' P (captionRows mkId vid i segs) := by
  intro segs
  induction segs with
  | nil => intro i _; exact List.chain'_nil
  | cons s rest ih =>
    intro i hq
    cases rest with
    | nil => simp [captionRows]
    | cons t r2 =>
      rw [show captionRows mkId vid i (s :: t :: r2) =
        mkRow mkId vid i s :: captionRows mkId vid (i + 1) (t :: r2) from rfl]
      rw [List.chain'_cons']
      obtain ⟨hst, htail⟩ := List.chain'_cons.mp hq
      constructor
      · intro b hb
        have hhd : (captionRows mkId vid (i + 1) (t :: r2)).head? =
            some (mkRow mkId vid (i + 1) t) := rfl
        rw [hhd] at hb
        simp only [Option.mem_def, Option.some.injEq] at hb
        subst hb
        exact h i (i + 1) s t hst
      · exact ih (i + 1) htail

theorem insertByIndex_head_le (c : Caption) (l : List Caption)
    (h : ∀ d ∈ l.head?, c.segment_index ≤ d.segment_index) :
    insertByIndex c l = c :: l := by
  cases l with
  | nil => rfl
  | cons d ds =>
    have := h d rfl
    simp [insertByIndex, this]

theorem sortByIndex_sorted (l : List Caption)
    (h : List.Chain' (fun a b => a.segment_index ≤ b.segment_index) l) :
    sortByIndex l = l := by
  induction l with
  | nil => rfl
  | cons c cs ih =>
    obtain ⟨hhd, htail⟩ := List.chain'_cons'.mp h
    rw [show sortByIndex (c :: cs) = insertByIndex c (sortByIndex cs) from rfl,
      ih htail]
    exact insertByIndex_head_le c cs hhd

theorem filter_vid_self (vid : String) (l : List Caption)
    (h : ∀ c ∈ l, c.video_id = vid) :
    l.filter (fun c => c.video_id == vid) = l := by
  apply List.filter_eq_self.mpr
  intro a ha
  simp [h a ha]

theorem chain_le_range' : ∀ (k i : ℕ), List.Chain' (fun a b : ℕ => a ≤ b) (List.range' i k)
  | 0, _ => List.chain'_nil
  | k + 1, i => by
    rw [List.range'_succ]
    rw [List.chain'_cons']
    refine ⟨?_, chain_le_range' k (i + 1)⟩
    intro y hy
    cases k with
    | zero => simp at hy
    | succ k2 =>
      rw [List.range'_succ] at hy
      simp only [List.head?_cons, Option.mem_def, Option.some.injEq] at hy
      omega

/-- C2 (amended): for a time-ordered word list whose words also have
well-formed intervals (start ≤ end), the caption rows of one transcription
run read back unchanged and in order, carry dense indices `0..k-1`, are
non-overlapping, and have non-decreasing start times. -/
theorem claim2_invariants (mkId : ℕ → String) (vid : String) (ws : List WordInfo)
    (n : ℕ) (hn : 1 ≤ n) (hord : timeOrdered ws) (hwf : wellFormedWords ws) :
    segmentsInvariantSpec mkId vid ws n := by
  obtain ⟨m, rfl⟩ : ∃ m, n = m + 1 := ⟨n - 1, by omega⟩
  have hchain := buildSegments_time_chain m ws hord hwf
  have hrowseq : savedCaptions mkId vid ws (m + 1) =
      captionRows mkId vid 0 (buildSegments ws (m + 1)) := rfl
  have hidx : (savedCaptions mkId vid ws (m + 1)).map Caption.segment_index =
      List.range' 0 (buildSegments ws (m + 1)).length := by
    rw [hrowseq]
    exact captionRows_index mkId vid 0 (buildSegments ws (m + 1))
  have hlen : (savedCaptions mkId vid ws (m + 1)).length =
      (buildSegments ws (m + 1)).length := by
    have h2 := congrArg List.length hidx
    simpa using h2
  have hendstart : List.Chain' (fun a b => a.end_time ≤ b.start_time)
      (savedCaptions mkId vid ws (m + 1)) := by
    rw [hrowseq]
    exact captionRows_chain mkId vid _ _ (fun i j s t hq => hq.1) _ 0 hchain.2
  have hstartstart : List.Chain' (fun a b => a.start_time ≤ b.start_time)
      (savedCaptions mkId vid ws (m + 1)) := by
    rw [hrowseq]
    exact captionRows_chain mkId vid _ _ (fun i j s t hq => hq.2) _ 0 hchain.2
  have hidxchain : List.Chain'
      (fun a b => a.segment_index ≤ b.segment_index)
      (savedCaptions mkId vid ws (m + 1)) := by
    have h3 : List.Chain' (fun a b : ℕ => a ≤ b)
        ((savedCaptions mkId vid ws (m + 1)).map Caption.segment_index) := by
      rw [hidx]
      exact chain_le_range' _ 0
    exact (List.chain'_map Caption.segment_index).mp h3
  have hsorted := sortByIndex_sorted _ hidxchain
  have hfilter := filter_vid_self vid (savedCaptions mkId vid ws (m + 1))
    (by rw [hrowseq]; exact captionRows_vid mkId vid 0 (buildSegments ws (m + 1)))
  refine ⟨?_, ?_, hendstart, hstartstart⟩
  · show sortByIndex _ = _
    rw [hfilter, hsorted]
  · rw [hidx, hlen, List.range_eq_range']

/-- C2 witness: the amended invariant instantiated at a concrete
well-formed, time-ordered three-word list with N = 2. -/
theorem claim2_invariants_witness :
    (1 ≤ 2 ∧ timeOrdered demoWords ∧ wellFormedWords demoWords) ∧
      segmentsInvariantSpec Nat.repr "v1" demoWords 2 := by
  have hord : timeOrdered demoWords := by
    simp only [timeOrdered, demoWords, List.chain'_cons, List.chain'_singleton, and_true]
    norm_num
  have hwf : wellFormedWords demoWords := by
    intro w hw
    simp only [demoWords, List.mem_cons, List.not_mem_nil, or_false] at hw
    rcases hw with rfl | rfl | rfl <;> norm_num
  exact ⟨⟨by norm_num, hord, hwf⟩, claim2_invariants Nat.repr "v1" demoWords 2
    (by norm_num) hord hwf⟩

/-- C2 counterexample to the claim as stated: the word list
`[(a, start 5, end 1), (b, start 2, end 3)]` satisfies the claim's stated
ordering hypothesis (each word's end time is at most the next word's start
time), yet with N = 1 the rows read back have start times 5 then 2, which
are not monotonically non-decreasing.  The hypothesis omits the data-model
requirement that each word's own start not exceed its end. -/
theorem claim2_counterexample :
    timeOrdered badWords ∧
    ¬ List.Chain' (fun a b => a.start_time ≤ b.start_time)
        (getCaptionsByVideoId (savedCaptions Nat.repr "v" badWords 1) "v") := by
  have heval : getCaptionsByVideoId (savedCaptions Nat.repr "v" badWords 1) "v" =
      [⟨Nat.repr 0, "v", 0, 5, 1, "a", 1⟩, ⟨Nat.repr 1, "v", 1, 2, 3, "b", 1⟩] := by
    norm_num [getCaptionsByVideoId, savedCaptions, captionRows, mkRow, buildSegments,
      chunksOf, chunksOfFuel, mkSegment, joinSpace, badWords, sortByIndex, insertByIndex]
  constructor
  · simp only [timeOrdered, badWords, List.chain'_cons, List.chain'_singleton, and_true]
    norm_num
  · intro hcon
    rw [heval] at hcon
    have h5 := (List.chain'_cons.mp hcon).1
    norm_num at h5

/-- C4: with an empty stored caption list, `generateSrtFile` raises the
no-captions error without writing a file, and both burn variants raise the
same condition with an empty event trace: no intermediate SRT write and no
render subprocess, regardless of transform, paths, or collaborator
outcomes. -/
theorem claim4_empty_captions (t : TextTransform) (dir vid : String)
    (renderOk unlinkOk : Bool) :
    generateSrtFileRun [] t = (false, Except.error noCaptionsMsg) ∧
    burnVP [] dir vid renderOk unlinkOk = ([], BurnOutcome.noCaptionsError) ∧
    burnES [] dir vid renderOk unlinkOk = ([], BurnOutcome.noCaptionsError) :=
  ⟨rfl, rfl, rfl⟩

/-- C9 counterexample: on the success path of the videoProcessor burn
variant the render succeeds and the export completes, yet the intermediate
SRT file is never deleted (the unlink call is commented out in the
source). -/
theorem claim9_counterexample :
    (burnVP [demoCaption] "d" "v1" true true).2 =
      BurnOutcome.ok "d/v1_with_captions.mp4" ∧
    RenderEvent.deleteSrtFile ∉ (burnVP [demoCaption] "d" "v1" true true).1 := by
  constructor
  · rfl
  · decide

/-- C9 (amended): the exportSubtitles burn variant deletes the intermediate
SRT file on both the success and the failure path; the videoProcessor
variant deletes it only on the failure path and keeps it on success; and in
both variants a failing unlink escapes as an exception instead of being
logged and swallowed. -/
theorem claim9_cleanup (caps : List Caption) (dir vid : String) (h : caps ≠ []) :
    burnCleanupSpec caps dir vid := by
  cases caps with
  | nil => exact absurd rfl h
  | cons c cs =>
    refine ⟨?_, ?_, ?_, ?_, ?_, ?_⟩
    · intro r; cases r <;> simp [burnES]
    · intro r; cases r <;> simp [burnES]
    · simp [burnVP]
    · simp [burnVP]
    · simp [burnVP]
    · simp [burnVP]

/-- C9 witness: the cleanup behaviour at a concrete one-caption list. -/
theorem claim9_cleanup_witness :
    [demoCaption] ≠ [] ∧ burnCleanupSpec [demoCaption] "d" "v1" :=
  ⟨by simp, claim9_cleanup [demoCaption] "d" "v1" (by simp)⟩

/-- C10: for a caption table holding no rows of the requested video
identifier - whether or not a video record exists is never consulted - the
read-all operation returns the empty list, and serialization fails with
exactly the same no-captions error as for an entirely empty table. -/
theorem claim10_missing_video (table : List Caption) (vid : String)
    (t : TextTransform) (h : ∀ c ∈ table, c.video_id ≠ vid) :
    getCaptionsByVideoId table vid = [] ∧
    generateSrtFileRun (getCaptionsByVideoId table vid) t =
      (false, Except.error noCaptionsMsg) ∧
    generateSrtFileRun (getCaptionsByVideoId table vid) t =
      generateSrtFileRun (getCaptionsByVideoId [] vid) t := by
  have hf : table.filter (fun c => c.video_id == vid) = [] := by
    rw [List.filter_eq_nil]
    intro a ha
    simp [h a ha]
  have hempty : getCaptionsByVideoId table vid = [] := by
    rw [getCaptionsByVideoId, hf]
    rfl
  refine ⟨hempty, ?_, ?_⟩ <;> rw [hempty] <;> rfl

/-- C10 witness: a table holding one caption of another video, queried for
an identifier with no rows. -/
theorem claim10_missing_video_witness :
    (∀ c ∈ [demoCaption], c.video_id ≠ "ghost") ∧
    (getCaptionsByVideoId [demoCaption] "ghost" = [] ∧
      generateSrtFileRun (getCaptionsByVideoId [demoCaption] "ghost")
          TextTransform.noTransform = (false, Except.error noCaptionsMsg) ∧
      generateSrtFileRun (getCaptionsByVideoId [demoCaption] "ghost")
          TextTransform.noTransform =
        generateSrtFileRun (getCaptionsByVideoId [] "ghost")
          TextTransform.noTransform) :=
  ⟨by decide, claim10_missing_video [demoCaption] "ghost" TextTransform.noTransform
    (by decide)⟩

theorem str_data_append (a b : String) : (a ++ b).data = a.data ++ b.data := rfl

theorem sub_extends_left (xs a b : List Char) (h : xs <:+: b) : xs <:+: a ++ b := by
  obtain ⟨s, t, hst⟩ := h
  exact ⟨a ++ s, t, by rw [← hst]; simp [List.append_assoc]⟩

theorem escapeQuoteChars_eq : ∀ l : List Char,
    escapeQuoteChars l = (l.map (fun c => if c = squote then escSeq else [c])).flatten
  | [] => rfl
  | c :: cs => by
    simp only [escapeQuoteChars, List.map_cons, List.flatten_cons, escapeQuoteChars_eq cs]
    by_cases hc : c = squote <;> simp [hc]

/-- C7 counterexample: compiling the subtitles filter for the path
`C:\u\v1.srt` (videoProcessor variant) embeds the path with its drive colon
intact and produces a filter string containing no backslash at all, hence no
escape character precedes any structurally significant character: colons and
path separators are normalized or passed through, never escaped. -/
theorem claim7_counterexample :
    vpSubtitleFilter demoStyle "C:\\u\\v1.srt" =
      "subtitles=C:/u/v1.srt:force_style=" ++ qStr ++ vpForceStyle ++ qStr ∧
    (vpSubtitleFilter demoStyle "C:\\u\\v1.srt").data.count bslash = 0 ∧
    ':' ∈ (vpSubtitleFilter demoStyle "C:\\u\\v1.srt").data := by
  refine ⟨?_, ?_, ?_⟩ <;> decide

/-- C7 (amended): the drawtext strategy escapes each single quote in caption
text as quote-backslash-backslash-backslash-quote-quote and leaves every
other character, colons included, untouched; the subtitle-file strategy only
replaces backslashes by forward slashes and embeds the result into the
filter with colons unescaped. -/
theorem claim7_escaping :
    (∀ l : List Char, escapeQuoteChars l =
      (l.map (fun c => if c = squote then escSeq else [c])).flatten) ∧
    escapeQuoteChars [':'] = [':'] ∧
    escapeDrawtextText qStr = String.mk escSeq ∧
    (∀ s : String, (normalizeSlashes s).data =
      s.data.map (fun c => if c = bslash then '/' else c)) ∧
    normalizeSlashes ":" = ":" ∧
    (∀ (style : CaptionStyle) (p : String), vpSubtitleFilter style p =
      "subtitles=" ++ normalizeSlashes p ++ ":force_style=" ++ qStr ++
        vpForceStyle ++ qStr) ∧
    bslash ∉ vpForceStyle.data :=
  ⟨escapeQuoteChars_eq, by decide, by decide, fun s => rfl, by decide,
    fun style p => rfl, by decide⟩

/-- C8 counterexample: with show-background disabled and background color
red, the exportSubtitles burn filter still carries the fixed semi-transparent
`BackColour=&H80000000` channel (alpha 0x80), not a fully transparent one
(alpha 0xFF). -/
theorem claim8_counterexample :
    demoStyle.showBackground = false ∧
    demoStyle.backgroundColor = "#FF0000" ∧
    ("BackColour=&H80000000").data <:+: (esSubtitleFilter demoStyle "/u/v1.srt").data ∧
    ¬ ("BackColour=&HFF").data <:+: (esSubtitleFilter demoStyle "/u/v1.srt").data := by
  refine ⟨rfl, rfl, ?_, ?_⟩ <;> decide

/-- C8 (amended): both burn variants build their filter expression without
consulting the caption style at all; the exportSubtitles variant always
carries the fixed semi-transparent `BackColour=&H80000000`, and the
videoProcessor variant's force_style section carries no background channel
entry. -/
theorem claim8_background :
    (∀ (s₁ s₂ : CaptionStyle) (p : String),
      esSubtitleFilter s₁ p = esSubtitleFilter s₂ p ∧
      vpSubtitleFilter s₁ p = vpSubtitleFilter s₂ p) ∧
    (∀ (s : CaptionStyle) (p : String),
      ("BackColour=&H80000000").data <:+: (esSubtitleFilter s p).data) ∧
    ¬ ("BackColour").data <:+: vpForceStyle.data := by
  refine ⟨fun s₁ s₂ p => ⟨rfl, rfl⟩, ?_, by decide⟩
  intro s p
  have hdata : (esSubtitleFilter s p).data =
      ("subtitles=" ++ normalizeSlashes p).data ++
        (":force_style=" ++ qStr ++ esForceStyle ++ qStr).data := by
    simp [esSubtitleFilter, str_data_append, List.append_assoc]
  rw [hdata]
  apply sub_extends_left
  decide

end SubtitlePipeline
